import Mathlib

/-
Verification of the Autobike trajectory controller
(src/myrio/c/src/trajectory_controller.c) against its design
specification.  The C code is shallowly embedded: IEEE doubles are
modelled as real numbers, the waypoint arrays as total functions
`Nat → ℝ` (indices at or beyond the window length model the
out-of-range reads the C code can perform), and the single persisted
filter scalar `x` is threaded explicitly through the controller
function.
-/

namespace Autobike

open scoped Real

/-- Three-way sign, translated from `sign` (trajectory_controller.c lines 33-47). -/
noncomputable def sign (value : ℝ) : ℝ :=
  if value > 0 then 1 else if value < 0 then -1 else 0

/-- Minimum of two doubles, translated from `min` (lines 50-60). -/
noncomputable def min (a b : ℝ) : ℝ :=
  if a < b then a else b

/-- Floor-based remainder, translated from `mod` (lines 63-68):
`remainder = a - floor(a/b) * b`. -/
noncomputable def mod (a b : ℝ) : ℝ :=
  a - ⌊a / b⌋ * b

/-- Truncation toward zero, as used by the C library function `fmod`. -/
noncomputable def ctrunc (z : ℝ) : ℤ :=
  if 0 ≤ z then ⌊z⌋ else ⌈z⌉

/-- The C library `fmod`: `fmod(x, y) = x - trunc(x/y) * y` (sign follows `x`). -/
noncomputable def fmod (x y : ℝ) : ℝ :=
  x - ctrunc (x / y) * y

/-- Angle wrap, translated from `wrap_angle` (lines 71-77):
`fmod(angle + pi, 2 pi)`, then a conditional `+ 2 pi` if negative,
then `- pi`. -/
noncomputable def wrap_angle (angle : ℝ) : ℝ :=
  let w1 := fmod (angle + π) (2 * π)
  let w2 := if w1 < 0 then w1 + 2 * π else w1
  w2 - π

/-- Size in bytes of a `double*` function parameter on the LP64 target
(the myRIO toolchain), as taken by `sizeof(traj_loc)` at line 94. -/
def sizeof_double_ptr : ℕ := 8

/-- Translated from line 94: `int size_traj_loc = sizeof(traj_loc) / 3;`.
`traj_loc` is a pointer parameter, so `sizeof` yields the pointer size,
not the caller's buffer length; with C integer division this is `8 / 3 = 2`. -/
def size_traj_loc : ℕ := sizeof_double_ptr / 3

/-- Squared Euclidean distance from the vehicle position to waypoint `i`,
as computed inside the search loop guard (lines 112-113). -/
noncomputable def distSq (X Y : ℕ → ℝ) (xe ye : ℝ) (i : ℕ) : ℝ :=
  (X i - xe) ^ 2 + (Y i - ye) ^ 2

/-- The closest-point search loop (lines 109-117), from a generic start
index.  The C guard is
`distSq(idx) >= distSq(idx+1) && closestpoint_idx <= size_traj_loc - 1`;
over the integers `idx <= sz - 1` is `idx + 1 <= sz`, which is the form
used here so that the guard is also faithful for `sz = 0`. -/
noncomputable def searchFrom (X Y : ℕ → ℝ) (xe ye : ℝ) (sz idx : ℕ) : ℕ :=
  if h : distSq X Y xe ye idx ≥ distSq X Y xe ye (idx + 1) ∧ idx + 1 ≤ sz then
    searchFrom X Y xe ye sz (idx + 1)
  else idx
termination_by sz + 1 - idx
decreasing_by
  omega

/-- The list of waypoint indices read by the search loop guard: each
evaluation of the guard reads waypoints `idx` and `idx+1` (the distance
comparison is the left operand of `&&`, so it is evaluated before the
bound test, including on the final, failing evaluation). -/
noncomputable def searchReads (X Y : ℕ → ℝ) (xe ye : ℝ) (sz idx : ℕ) : List ℕ :=
  if h : distSq X Y xe ye idx ≥ distSq X Y xe ye (idx + 1) ∧ idx + 1 ≤ sz then
    idx :: (idx + 1) :: searchReads X Y xe ye sz (idx + 1)
  else [idx, idx + 1]
termination_by sz + 1 - idx
decreasing_by
  omega

/-- Inputs of one controller invocation: the unpacked local trajectory
(`X_loc`, `Y_loc`, `Psi_loc`, with `sz` the value of `size_traj_loc`),
the pose estimate, the velocity, and the unpacked parameters. -/
structure Inp where
  X_loc : ℕ → ℝ
  Y_loc : ℕ → ℝ
  Psi_loc : ℕ → ℝ
  sz : ℕ
  X_est : ℝ
  Y_est : ℝ
  Psi_est : ℝ
  v : ℝ
  lr : ℝ
  lf : ℝ
  lambda : ℝ
  k1 : ℝ
  k2 : ℝ
  e1_max : ℝ
  Ad_t : ℝ
  Bd_t : ℝ
  C_t : ℝ
  D_t : ℝ

/-- Result of the closest-point search, started at index 1 (lines 109-117). -/
noncomputable def closestpoint_idx (s : Inp) : ℕ :=
  searchFrom s.X_loc s.Y_loc s.X_est s.Y_est s.sz 1

/-- Distance from the waypoint before the closest point to the vehicle (line 142). -/
noncomputable def dis_true_previous (s : Inp) : ℝ :=
  Real.sqrt ((s.X_loc (closestpoint_idx s - 1) - s.X_est) ^ 2 +
    (s.Y_loc (closestpoint_idx s - 1) - s.Y_est) ^ 2)

/-- Angle of the line between the previous closest point and the vehicle (line 144). -/
noncomputable def alpha_star (s : Inp) : ℝ :=
  Real.arctan ((s.Y_loc (closestpoint_idx s - 1) - s.Y_est) /
    (s.X_loc (closestpoint_idx s - 1) - s.X_est))

/-- Heading of the previous closest point minus `alpha_star` (line 146). -/
noncomputable def alpha_projected_dist (s : Inp) : ℝ :=
  alpha_star s - s.Psi_loc (closestpoint_idx s)

/-- Projected distance of the vehicle onto the trajectory (line 148); note
the absolute value `fabs` in the source. -/
noncomputable def projected_dist (s : Inp) : ℝ :=
  |dis_true_previous s * Real.cos (alpha_projected_dist s)|

/-- Segment length between waypoints `idx-1` and `idx` (line 149). -/
noncomputable def compared_dist (s : Inp) : ℝ :=
  Real.sqrt ((s.X_loc (closestpoint_idx s) - s.X_loc (closestpoint_idx s - 1)) ^ 2 +
    (s.Y_loc (closestpoint_idx s) - s.Y_loc (closestpoint_idx s - 1)) ^ 2)

/-- Heading index selection (lines 120, 152-155): the heading index starts
as `closestpoint_idx` and becomes `closestpoint_idx + 1` when the
projected distance is at least the segment length. -/
noncomputable def closestpoint_heading_idx (s : Inp) : ℕ :=
  if projected_dist s ≥ compared_dist s then closestpoint_idx s + 1 else closestpoint_idx s

/-- X distance from the vehicle to the closest point (line 124). -/
noncomputable def dx (s : Inp) : ℝ := s.X_est - s.X_loc (closestpoint_idx s)

/-- Y distance from the vehicle to the closest point (line 125). -/
noncomputable def dy (s : Inp) : ℝ := s.Y_est - s.Y_loc (closestpoint_idx s)

/-- Lateral (cross-track) error (line 158). -/
noncomputable def e1 (s : Inp) : ℝ :=
  dy s * Real.cos (s.Psi_loc (closestpoint_heading_idx s)) -
    dx s * Real.sin (s.Psi_loc (closestpoint_heading_idx s))

/-- Heading error, wrapped (lines 159 and 167; the raw value is not used
between those lines, so the wrap is applied directly here). -/
noncomputable def e2 (s : Inp) : ℝ :=
  wrap_angle (s.Psi_est - s.Psi_loc (closestpoint_heading_idx s))

/-- The limiter applied to `D_psiref` (lines 131-138): two sequential
conditional `mod` corrections, the second testing the value produced by
the first. -/
noncomputable def limit_D_psiref (d : ℝ) : ℝ :=
  let d1 := if d ≥ π then mod d (-(2 * π)) else d
  if d1 ≤ -π then mod d1 (2 * π) else d1

/-- Heading reference change between consecutive waypoints, limited
(lines 128-138). -/
noncomputable def D_psiref (s : Inp) : ℝ :=
  limit_D_psiref (s.Psi_loc (closestpoint_idx s + 1) - s.Psi_loc (closestpoint_idx s))

/-- Distance between waypoints `idx` and `idx+1` (lines 170-173). -/
noncomputable def dis (s : Inp) : ℝ :=
  Real.sqrt ((s.X_loc (closestpoint_idx s + 1) - s.X_loc (closestpoint_idx s)) ^ 2 +
    (s.Y_loc (closestpoint_idx s + 1) - s.Y_loc (closestpoint_idx s)) ^ 2)

/-- Sample time between consecutive heading references (line 174). -/
noncomputable def Ts_psi (s : Inp) : ℝ := dis s / s.v

/-- Sampled heading-rate reference (line 177). -/
noncomputable def dpsiref (s : Inp) : ℝ := D_psiref s / Ts_psi s

/-- Output index feedback (lines 180-181): the search result minus one. -/
noncomputable def closestpoint_idx_out (s : Inp) : ℤ :=
  (closestpoint_idx s : ℤ) - 1

/-- Steering contribution from the trajectory error (line 184). -/
noncomputable def delta_ref_error (s : Inp) : ℝ :=
  -s.k1 * sign (e1 s) * min |e1 s| s.e1_max - s.k2 * e2 s

/-- Filter output equation (line 191), using the entry (pre-update) state `x`. -/
noncomputable def delta_ref_psi (s : Inp) (x : ℝ) : ℝ :=
  s.C_t * x + s.D_t * dpsiref s

/-- Filter state update equation (lines 190 and 193): the value stored
into the persisted state after the output has been computed. -/
noncomputable def x_next (s : Inp) (x : ℝ) : ℝ :=
  s.Ad_t * x + s.Bd_t * dpsiref s

/-- Steering saturation (lines 199-206): two sequential conditional
clamps, the second testing the value produced by the first. -/
noncomputable def clamp_steer (d : ℝ) : ℝ :=
  let d1 := if d ≥ π / 4 then π / 4 else d
  if d1 ≤ -(π / 4) then -(π / 4) else d1

/-- Total steering reference, clamped (lines 196-206). -/
noncomputable def delta_ref (s : Inp) (x : ℝ) : ℝ :=
  clamp_steer (delta_ref_psi s x + delta_ref_error s)

/-- Gravity constant, from `#define g 9.81` (line 6). -/
noncomputable def g : ℝ := 9.81

/-- Effective steering reference (line 209). -/
noncomputable def eff_delta_ref (s : Inp) (x : ℝ) : ℝ :=
  delta_ref s x * Real.sin s.lambda

/-- Roll reference output (line 210). -/
noncomputable def roll_ref (s : Inp) (x : ℝ) : ℝ :=
  -1 * Real.arctan (Real.tan (eff_delta_ref s x) * (s.v ^ 2 / (s.lr + s.lf)) / g)

/-- One controller invocation: given the inputs and the persisted filter
state at entry, produce `(roll_ref, closestpoint_idx_out, new filter state)`. -/
noncomputable def controller (s : Inp) (x : ℝ) : ℝ × ℤ × ℝ :=
  (roll_ref s x, closestpoint_idx_out s, x_next s x)

/-- Iterated invocations: the persisted `static double x` threads from
each call into the next. -/
noncomputable def controller_run : List Inp → ℝ → List (ℝ × ℤ) × ℝ
  | [], x => ([], x)
  | s :: rest, x =>
      let out := controller s x
      let r := controller_run rest out.2.2
      ((out.1, out.2.1) :: r.1, r.2)

/-- Construction of the controller inputs as `trajectory_controller`
performs it (lines 79-106): the waypoint count is `size_traj_loc`
(derived from `sizeof` of the pointer, not from any caller-supplied
length), and the three arrays are unpacked at offsets `0`,
`size_traj_loc` and `2 * size_traj_loc` into the buffer. -/
noncomputable def mkInp (traj_loc : ℕ → ℝ) (X_est Y_est Psi_est v : ℝ)
    (bike_params traj_params : ℕ → ℝ) (Ad_t Bd_t C_t D_t : ℝ) : Inp where
  X_loc := fun i => traj_loc i
  Y_loc := fun i => traj_loc (i + size_traj_loc)
  Psi_loc := fun i => traj_loc (i + 2 * size_traj_loc)
  sz := size_traj_loc
  X_est := X_est
  Y_est := Y_est
  Psi_est := Psi_est
  v := v
  lr := bike_params 0
  lf := bike_params 1
  lambda := bike_params 2
  k1 := traj_params 0
  k2 := traj_params 1
  e1_max := traj_params 2
  Ad_t := Ad_t
  Bd_t := Bd_t
  C_t := C_t
  D_t := D_t

/-- The full C entry point (lines 79-211), state threaded explicitly. -/
noncomputable def trajectory_controller (traj_loc : ℕ → ℝ) (X_est Y_est Psi_est v : ℝ)
    (bike_params traj_params : ℕ → ℝ) (Ad_t Bd_t C_t D_t x : ℝ) : ℝ × ℤ × ℝ :=
  controller (mkInp traj_loc X_est Y_est Psi_est v bike_params traj_params Ad_t Bd_t C_t D_t) x

/-- Concrete input exhibiting the sign behaviour of the heading-index
projection: vehicle at the origin, previous waypoint at `(2,0)`, closest
point at `(3,0)` with heading `pi` there, so the projection cosine is `-1`. -/
noncomputable def s0 : Inp where
  X_loc := fun i => if i = 1 then 3 else if i = 2 then 10 else if i = 3 then 11 else 2
  Y_loc := fun _ => 0
  Psi_loc := fun i => if i = 1 then π else 0
  sz := 4
  X_est := 0
  Y_est := 0
  Psi_est := 0
  v := 1
  lr := 1
  lf := 1
  lambda := 0
  k1 := 1
  k2 := 1
  e1_max := 1
  Ad_t := 0
  Bd_t := 0
  C_t := 0
  D_t := 1

/-- Concrete on-path scenario: five collinear waypoints on the X axis
spaced one unit apart, all headings zero, vehicle at `(1/2, 0)` heading
zero, unit velocity, pass-through filter. -/
noncomputable def sW : Inp where
  X_loc := fun i => (i : ℝ)
  Y_loc := fun _ => 0
  Psi_loc := fun _ => 0
  sz := 5
  X_est := 1 / 2
  Y_est := 0
  Psi_est := 0
  v := 1
  lr := 1
  lf := 1
  lambda := 0
  k1 := 1
  k2 := 1
  e1_max := 1
  Ad_t := 0
  Bd_t := 0
  C_t := 0
  D_t := 1

/-- Unfolding equation of the search loop, with the dependent `if`
replaced by a plain one. -/
theorem searchFrom_unfold (X Y : ℕ → ℝ) (xe ye : ℝ) (sz idx : ℕ) :
    searchFrom X Y xe ye sz idx =
      if distSq X Y xe ye idx ≥ distSq X Y xe ye (idx + 1) ∧ idx + 1 ≤ sz then
        searchFrom X Y xe ye sz (idx + 1)
      else idx := by
  conv_lhs => rw [searchFrom]
  split_ifs with h <;> rfl

/-- Unfolding equation of the search read trace. -/
theorem searchReads_unfold (X Y : ℕ → ℝ) (xe ye : ℝ) (sz idx : ℕ) :
    searchReads X Y xe ye sz idx =
      if distSq X Y xe ye idx ≥ distSq X Y xe ye (idx + 1) ∧ idx + 1 ≤ sz then
        idx :: (idx + 1) :: searchReads X Y xe ye sz (idx + 1)
      else [idx, idx + 1] := by
  conv_lhs => rw [searchReads]
  split_ifs with h <;> rfl

/-- The search result never moves backwards and never exceeds the loop
bound value `sz` (fuel-indexed induction). -/
theorem searchFrom_bounds (X Y : ℕ → ℝ) (xe ye : ℝ) (sz : ℕ) :
    ∀ n idx, sz + 1 - idx ≤ n → idx ≤ sz →
      idx ≤ searchFrom X Y xe ye sz idx ∧ searchFrom X Y xe ye sz idx ≤ sz := by
  intro n
  induction n with
  | zero =>
      intro idx h1 h2
      exfalso
      omega
  | succ n ih =>
      intro idx h1 h2
      rw [searchFrom_unfold]
      split_ifs with h
      · have h3 := ih (idx + 1) (by omega) h.2
        exact ⟨Nat.le_trans (Nat.le_succ idx) h3.1, h3.2⟩
      · exact ⟨Nat.le_refl idx, h2⟩

/-- Every index in the search read trace lies in `[idx, sz + 1]`. -/
theorem searchReads_bounds (X Y : ℕ → ℝ) (xe ye : ℝ) (sz : ℕ) :
    ∀ n idx, sz + 1 - idx ≤ n → idx ≤ sz →
      ∀ j ∈ searchReads X Y xe ye sz idx, idx ≤ j ∧ j ≤ sz + 1 := by
  intro n
  induction n with
  | zero =>
      intro idx h1 h2
      exfalso
      omega
  | succ n ih =>
      intro idx h1 h2 j hj
      rw [searchReads_unfold] at hj
      split_ifs at hj with h
      · simp only [List.mem_cons] at hj
        rcases hj with rfl | rfl | hj
        · exact ⟨Nat.le_refl j, by omega⟩
        · exact ⟨Nat.le_succ idx, by omega⟩
        · have h3 := ih (idx + 1) (by omega) h.2 j hj
          exact ⟨Nat.le_trans (Nat.le_succ idx) h3.1, h3.2⟩
      · simp only [List.mem_cons, List.not_mem_nil, or_false] at hj
        rcases hj with rfl | rfl
        · exact ⟨Nat.le_refl j, by omega⟩
        · exact ⟨Nat.le_succ idx, by omega⟩

/-- The source `mod` as a fractional part. -/
theorem mod_eq_fract_mul (x y : ℝ) (hy : y ≠ 0) : mod x y = Int.fract (x / y) * y := by
  unfold mod Int.fract
  rw [sub_mul]
  congr 1
  field_simp

/-- Range of the source `mod` for a positive modulus. -/
theorem mod_nonneg_lt (x y : ℝ) (hy : 0 < y) : 0 ≤ mod x y ∧ mod x y < y := by
  rw [mod_eq_fract_mul x y hy.ne']
  constructor
  · exact mul_nonneg (Int.fract_nonneg _) hy.le
  · calc Int.fract (x / y) * y < 1 * y :=
          mul_lt_mul_of_pos_right (Int.fract_lt_one _) hy
      _ = y := one_mul y

/-- Range of the source `mod` for a negative modulus. -/
theorem mod_neg_le (x y : ℝ) (hy : y < 0) : y < mod x y ∧ mod x y ≤ 0 := by
  rw [mod_eq_fract_mul x y hy.ne]
  constructor
  · calc y = 1 * y := (one_mul y).symm
      _ < Int.fract (x / y) * y := mul_lt_mul_of_neg_right (Int.fract_lt_one _) hy
  · exact mul_nonpos_of_nonneg_of_nonpos (Int.fract_nonneg _) hy.le

/-- The source `mod` is invariant under shifting by integer multiples of
the modulus. -/
theorem mod_add_int_mul (x y : ℝ) (k : ℤ) (hy : y ≠ 0) :
    mod (x + k * y) y = mod x y := by
  rw [mod_eq_fract_mul _ _ hy, mod_eq_fract_mul _ _ hy]
  congr 1
  have h : (x + k * y) / y = x / y + k := by
    field_simp
  rw [h, Int.fract_add_int]

/-- For a value in `(-2y, -y]` with `y > 0`, the source `mod` adds `2y`
once; stated for the concrete shift used by the limiter. -/
theorem mod_shift_once (r y : ℝ) (hy : 0 < y) (h1 : -(2 * y) < r) (h2 : r ≤ -y) :
    mod r (2 * y) = r + 2 * y := by
  have h2y : (0 : ℝ) < 2 * y := by linarith
  have hfl : ⌊r / (2 * y)⌋ = -1 := by
    rw [Int.floor_eq_iff]
    constructor
    · push_cast
      rw [le_div_iff₀ h2y]
      linarith
    · push_cast
      have hneg : r / (2 * y) < 0 := div_neg_of_neg_of_pos (by linarith) h2y
      linarith
  unfold mod
  rw [hfl]
  push_cast
  ring

/-- The truncation-based `fmod` followed by the conditional `+ y`
correction equals the floor-based `mod`, for `y > 0`. -/
theorem fmod_if_eq_mod (x y : ℝ) (hy : 0 < y) :
    (if fmod x y < 0 then fmod x y + y else fmod x y) = mod x y := by
  by_cases h0 : 0 ≤ x / y
  · have he : fmod x y = mod x y := by
      unfold fmod ctrunc mod
      rw [if_pos h0]
    rw [he, if_neg (not_lt.mpr (mod_nonneg_lt x y hy).1)]
  · push_neg at h0
    by_cases hf : Int.fract (x / y) = 0
    · have hxy : x / y = (⌊x / y⌋ : ℝ) := by
        have hd : Int.fract (x / y) = x / y - ⌊x / y⌋ := rfl
        rw [hd] at hf
        linarith
      have hc : ⌈x / y⌉ = ⌊x / y⌋ := by
        rw [hxy, Int.ceil_intCast, Int.floor_intCast]
      have he : fmod x y = mod x y := by
        unfold fmod ctrunc mod
        rw [if_neg (not_le.mpr h0), hc]
      rw [he, if_neg (not_lt.mpr (mod_nonneg_lt x y hy).1)]
    · have hfl : (⌊x / y⌋ : ℝ) < x / y := by
        have hd : Int.fract (x / y) = x / y - ⌊x / y⌋ := rfl
        have hp : 0 < Int.fract (x / y) :=
          lt_of_le_of_ne (Int.fract_nonneg _) (Ne.symm hf)
        rw [hd] at hp
        linarith
      have hceil : ⌈x / y⌉ = ⌊x / y⌋ + 1 := by
        rw [Int.ceil_eq_iff]
        constructor
        · push_cast
          linarith
        · push_cast
          linarith [Int.lt_floor_add_one (x / y)]
      have he : fmod x y = mod x y - y := by
        unfold fmod ctrunc mod
        rw [if_neg (not_le.mpr h0), hceil]
        push_cast
        ring
      have hlt : fmod x y < 0 := by
        rw [he]
        linarith [(mod_nonneg_lt x y hy).2]
      rw [if_pos hlt, he]
      ring

/-- The source `wrap_angle` equals the canonical floor-modulo wrap. -/
theorem wrap_angle_eq_mod (a : ℝ) : wrap_angle a = mod (a + π) (2 * π) - π := by
  have h2 : (0 : ℝ) < 2 * π := by positivity
  simp only [wrap_angle]
  rw [fmod_if_eq_mod (a + π) (2 * π) h2]

/-- Claim C2: the waypoint count the controller actually uses is
`sizeof(double*)/3 = 2` on the LP64 target — a platform constant
independent of the caller-supplied buffer length (the entry point takes
no length argument at all, so every constructed input window has
`sz = 2`) — and hence the documented `N >= 4` window invariant cannot be
realized by any input. -/
theorem size_traj_loc_constant :
    size_traj_loc = sizeof_double_ptr / 3 ∧ size_traj_loc = 2 ∧
      (∀ (traj_loc : ℕ → ℝ) (X_est Y_est Psi_est v : ℝ)
          (bike_params traj_params : ℕ → ℝ) (Ad_t Bd_t C_t D_t : ℝ),
          (mkInp traj_loc X_est Y_est Psi_est v bike_params traj_params
            Ad_t Bd_t C_t D_t).sz = 2) ∧
      ¬ 4 ≤ size_traj_loc :=
  ⟨rfl, rfl, fun _ _ _ _ _ _ _ _ _ _ _ => rfl, by decide⟩

/-- Claim C5: every invocation performs exactly one standard discrete
state-space step: the returned state is `Ad*x + Bd*dpsiref` of the entry
state `x`, the output path uses `delta_ref_psi = C*x + D*dpsiref` with
the same pre-update `x`, and iterating the controller threads the state
by that recurrence (so the state trace from any initial value, in
particular from the initial `x = 0`, is the standard fold). -/
theorem filter_step_standard :
    (∀ (s : Inp) (x : ℝ),
        (controller s x).2.2 = s.Ad_t * x + s.Bd_t * dpsiref s ∧
        delta_ref_psi s x = s.C_t * x + s.D_t * dpsiref s ∧
        (controller s x).1 =
          -1 * Real.arctan (Real.tan
              (clamp_steer (s.C_t * x + s.D_t * dpsiref s + delta_ref_error s) *
                Real.sin s.lambda) * (s.v ^ 2 / (s.lr + s.lf)) / g)) ∧
    (∀ (ss : List Inp) (x0 : ℝ),
        (controller_run ss x0).2 =
          ss.foldl (fun a s => s.Ad_t * a + s.Bd_t * dpsiref s) x0) := by
  constructor
  · intro s x
    exact ⟨rfl, rfl, rfl⟩
  · intro ss
    induction ss with
    | nil => intro x0; rfl
    | cons s rest ih =>
        intro x0
        simp only [controller_run, List.foldl]
        exact ih (s.Ad_t * x0 + s.Bd_t * dpsiref s)

/-- Claim C9: the emitted `closestpoint_idx_out` is the search result of
section 4.1 minus one, regardless of the heading-index adjustment (the
controller's output component is `searchFrom ... 1 - 1` whatever the
projection comparison decides). -/
theorem closestpoint_idx_out_spec :
    ∀ (s : Inp) (x : ℝ),
      (controller s x).2.1 = (searchFrom s.X_loc s.Y_loc s.X_est s.Y_est s.sz 1 : ℤ) - 1 :=
  fun _ _ => rfl

/-- Claim C8: the steering clamp maps every pre-clamp value into
`[-pi/4, pi/4]`, passes values inside the interval through unchanged, and
replaces values outside it by exactly the nearer bound. -/
theorem clamp_steer_spec :
    ∀ d : ℝ,
      (-(π / 4) ≤ clamp_steer d ∧ clamp_steer d ≤ π / 4) ∧
      (-(π / 4) ≤ d ∧ d ≤ π / 4 → clamp_steer d = d) ∧
      (π / 4 < d → clamp_steer d = π / 4) ∧
      (d < -(π / 4) → clamp_steer d = -(π / 4)) := by
  intro d
  have hq : (0 : ℝ) < π / 4 := by positivity
  simp only [clamp_steer]
  split_ifs with h1 h2 h2
  · exact absurd h2 (by intro hc; linarith)
  · refine ⟨⟨by linarith, le_refl _⟩, ?_, fun _ => rfl, fun hc => absurd hc (by intro hc; linarith)⟩
    rintro ⟨-, hb⟩
    exact le_antisymm h1 hb
  · refine ⟨⟨le_refl _, by linarith⟩, ?_, fun hc => absurd hc (by linarith), fun _ => rfl⟩
    rintro ⟨ha, -⟩
    exact (le_antisymm h2 ha).symm
  · exact ⟨⟨by linarith, by linarith⟩, fun _ => rfl,
      fun hc => absurd hc (by linarith), fun hc => absurd hc (by linarith)⟩

/-- Witness for C8: a value above the band clamps to `pi/4`, zero passes
through, a value below the band clamps to `-pi/4`. -/
theorem clamp_steer_spec_witness :
    clamp_steer π = π / 4 ∧ clamp_steer 0 = 0 ∧ clamp_steer (-π) = -(π / 4) :=
  ⟨(clamp_steer_spec π).2.2.1 (by linarith [Real.pi_pos]),
   (clamp_steer_spec 0).2.1 ⟨by linarith [Real.pi_pos], by linarith [Real.pi_pos]⟩,
   (clamp_steer_spec (-π)).2.2.2 (by linarith [Real.pi_pos])⟩

/-- Claim C7: the error steering term is
`-k1*sign(e1)*min(|e1|, e1_max) - k2*e2` with the exact three-way sign,
and for `|e1| > e1_max` (with nonnegative gain and bound) the lateral
contribution's magnitude is exactly `k1*e1_max`, independent of `|e1|`. -/
theorem delta_ref_error_saturation :
    (∀ s : Inp,
        delta_ref_error s = -s.k1 * sign (e1 s) * min |e1 s| s.e1_max - s.k2 * e2 s) ∧
    (∀ k1 e1max ev : ℝ, 0 ≤ k1 → 0 ≤ e1max → e1max < |ev| →
        |(-k1 * sign ev * min |ev| e1max)| = k1 * e1max) := by
  constructor
  · intro s
    rfl
  · intro k1 e1max ev hk h0 hlt
    have hmin : min |ev| e1max = e1max := by
      unfold min
      rw [if_neg (not_lt.mpr hlt.le)]
    rw [hmin]
    have hne : ev ≠ 0 := by
      intro hc
      rw [hc, abs_zero] at hlt
      linarith
    rcases lt_or_gt_of_ne hne with hneg | hpos
    · have hs : sign ev = -1 := by
        unfold sign
        rw [if_neg (by linarith), if_pos hneg]
      rw [hs, show -k1 * (-1) * e1max = k1 * e1max by ring]
      exact abs_of_nonneg (mul_nonneg hk h0)
    · have hs : sign ev = 1 := by
        unfold sign
        rw [if_pos hpos]
      rw [hs, show -k1 * 1 * e1max = -(k1 * e1max) by ring, abs_neg]
      exact abs_of_nonneg (mul_nonneg hk h0)

/-- Witness for C7: at `k1 = 1`, `e1_max = 1`, `e1 = 2` the saturated
lateral contribution has magnitude `1 * 1`. -/
theorem delta_ref_error_saturation_witness :
    |(-1 * sign 2 * min |(2 : ℝ)| 1)| = 1 * 1 :=
  delta_ref_error_saturation.2 1 1 2 (by norm_num) (by norm_num) (by norm_num)

/-- Counterexample to claim C3: for consecutive headings `0` and
`-(11/5)pi` the raw difference `-(11/5)pi` is reduced by the limiter to
`(9/5)pi`, which lies outside `[-pi, pi]` and differs from the single
`+2pi` correction the claim describes. -/
theorem limit_D_psiref_cex :
    limit_D_psiref (-(11 / 5) * π - 0) = (9 / 5) * π ∧
    ¬ (-π ≤ limit_D_psiref (-(11 / 5) * π - 0) ∧ limit_D_psiref (-(11 / 5) * π - 0) ≤ π) ∧
    limit_D_psiref (-(11 / 5) * π - 0) ≠ (-(11 / 5) * π - 0) + 2 * π := by
  have hpi := Real.pi_pos
  have harg : -(11 / 5) * π - 0 = -(11 / 5) * π := by ring
  have hval : limit_D_psiref (-(11 / 5) * π) = (9 / 5) * π := by
    have hn1 : ¬ ((-(11 / 5) * π) ≥ π) := by
      push_neg
      linarith
    have hp2 : (-(11 / 5) * π) ≤ -π := by linarith
    simp only [limit_D_psiref]
    rw [if_neg hn1, if_pos hp2]
    unfold mod
    have hq : -(11 / 5) * π / (2 * π) = -(11 / 10) := by
      rw [div_eq_iff (by positivity)]
      ring
    rw [hq, show ⌊(-(11 / 10) : ℝ)⌋ = -2 from
      Int.floor_eq_iff.mpr ⟨by norm_num, by norm_num⟩]
    push_cast
    ring
  rw [harg]
  refine ⟨hval, ?_, ?_⟩
  · rw [hval]
    rintro ⟨-, hle⟩
    nlinarith
  · rw [hval]
    intro hc
    nlinarith

/-- Claim C3 (amended): the limiter applies floor-based modulo
reductions, not single `±2pi` steps.  The result always lies in
`(-pi, 2pi)`, and whenever the raw difference exceeds `-pi` the result
lies in `(-pi, pi]`; but a raw difference `<= -pi` is mapped to
`mod(d, 2pi) ∈ [0, 2pi)`, which can exceed `pi`. -/
theorem limit_D_psiref_range :
    ∀ d : ℝ,
      (-π < limit_D_psiref d ∧ limit_D_psiref d < 2 * π) ∧
      (-π < d → limit_D_psiref d ≤ π) := by
  intro d
  have hpi := Real.pi_pos
  simp only [limit_D_psiref]
  split_ifs with h1 h2 h2
  · -- d >= pi and mod d (-(2 pi)) <= -pi: the second mod adds 2 pi once
    have hm := mod_neg_le d (-(2 * π)) (by nlinarith)
    have hs : mod (mod d (-(2 * π))) (2 * π) = mod d (-(2 * π)) + 2 * π :=
      mod_shift_once _ π hpi (by linarith [hm.1]) h2
    rw [hs]
    refine ⟨⟨by linarith [hm.1], by linarith [hm.2]⟩, fun _ => by linarith [h2]⟩
  · -- d >= pi and the first reduction already lies in (-pi, 0]
    have hm := mod_neg_le d (-(2 * π)) (by nlinarith)
    push_neg at h2
    exact ⟨⟨by linarith, by linarith [hm.2]⟩, fun _ => by linarith [hm.2]⟩
  · -- d < pi and d <= -pi: a bare positive modulo, range [0, 2 pi)
    have hm := mod_nonneg_lt d (2 * π) (by positivity)
    exact ⟨⟨by linarith [hm.1], hm.2⟩, fun hc => absurd hc (by push_neg; linarith)⟩
  · -- -pi < d < pi: unchanged
    push_neg at h1 h2
    exact ⟨⟨h2, by linarith⟩, fun _ => by linarith⟩

/-- Witness for C3 (amended): the zero difference is left unchanged and
lies within all the proved bounds. -/
theorem limit_D_psiref_range_witness :
    (-π < limit_D_psiref 0 ∧ limit_D_psiref 0 < 2 * π) ∧ limit_D_psiref 0 ≤ π :=
  ⟨(limit_D_psiref_range 0).1, (limit_D_psiref_range 0).2 (by linarith [Real.pi_pos])⟩

/-- Counterexample to claim C4: `wrap_angle pi = -pi`, which is not in
`(-pi, pi]`; the wrap's actual range is `[-pi, pi)`. -/
theorem wrap_angle_at_pi_cex :
    wrap_angle π = -π ∧ ¬ (-π < wrap_angle π ∧ wrap_angle π ≤ π) := by
  have h2 : (0 : ℝ) < 2 * π := by positivity
  have h : wrap_angle π = -π := by
    rw [wrap_angle_eq_mod, show π + π = 2 * π by ring,
      mod_eq_fract_mul _ _ h2.ne', div_self h2.ne', Int.fract_one]
    ring
  refine ⟨h, ?_⟩
  rw [h]
  rintro ⟨hlt, -⟩
  exact lt_irrefl _ hlt

/-- Claim C4 (amended): the angle wrap lands in `[-pi, pi)` (closed at
`-pi`, open at `pi` — not `(-pi, pi]` as claimed, see the counterexample
at `pi`), and it is `2pi`-periodic: `wrap(a + 2pi k) = wrap(a)` for every
integer `k`. -/
theorem wrap_angle_range_periodic :
    ∀ a : ℝ,
      (-π ≤ wrap_angle a ∧ wrap_angle a < π) ∧
      ∀ k : ℤ, wrap_angle (a + 2 * π * k) = wrap_angle a := by
  intro a
  have h2 : (0 : ℝ) < 2 * π := by positivity
  constructor
  · rw [wrap_angle_eq_mod]
    have hm := mod_nonneg_lt (a + π) (2 * π) h2
    exact ⟨by linarith [hm.1], by linarith [hm.2]⟩
  · intro k
    rw [wrap_angle_eq_mod, wrap_angle_eq_mod,
      show a + 2 * π * k + π = (a + π) + k * (2 * π) by ring,
      mod_add_int_mul _ _ k h2.ne']

/-- Counterexample to claim C1: with a window of `N = 4` waypoints all at
the vehicle position (ties keep the loop advancing), the search
terminates at index `4 = N`, past `N - 1 = 3`, and its guard reads
waypoint index `5 = N + 1`, outside the window `[0, N-1]` — the
out-of-range branch of the indexing is reachable. -/
theorem search_exceeds_bound_cex :
    searchFrom (fun _ => 0) (fun _ => 0) 0 0 4 1 = 4 ∧
    ¬ searchFrom (fun _ => 0) (fun _ => 0) 0 0 4 1 ≤ 4 - 1 ∧
    5 ∈ searchReads (fun _ => 0) (fun _ => 0) 0 0 4 1 := by
  have hg : ∀ i j : ℕ,
      distSq (fun _ => (0 : ℝ)) (fun _ => 0) 0 0 i ≥ distSq (fun _ => 0) (fun _ => 0) 0 0 j := by
    intro i j
    simp [distSq]
  have h1 : searchFrom (fun _ => (0 : ℝ)) (fun _ => 0) 0 0 4 1 = 4 := by
    rw [searchFrom_unfold, if_pos ⟨hg _ _, by norm_num⟩,
      searchFrom_unfold, if_pos ⟨hg _ _, by norm_num⟩,
      searchFrom_unfold, if_pos ⟨hg _ _, by norm_num⟩,
      searchFrom_unfold, if_neg (by rintro ⟨-, hb⟩; omega)]
  refine ⟨h1, by rw [h1]; omega, ?_⟩
  rw [searchReads_unfold, if_pos ⟨hg _ _, by norm_num⟩,
    searchReads_unfold, if_pos ⟨hg _ _, by norm_num⟩,
    searchReads_unfold, if_pos ⟨hg _ _, by norm_num⟩,
    searchReads_unfold, if_neg (by rintro ⟨-, hb⟩; omega)]
  simp

/-- Claim C1 (amended): the search, started at index 1, terminates with
an index in `[1, N]` — it can advance one past `N-1`, to `N` itself —
and every waypoint index its guard reads lies in `[1, N+1]`, i.e. up to
two past the last in-window index `N-1`. -/
theorem search_bounds_amended (X Y : ℕ → ℝ) (xe ye : ℝ) (sz : ℕ) (hsz : 1 ≤ sz) :
    (1 ≤ searchFrom X Y xe ye sz 1 ∧ searchFrom X Y xe ye sz 1 ≤ sz) ∧
      ∀ j ∈ searchReads X Y xe ye sz 1, 1 ≤ j ∧ j ≤ sz + 1 :=
  ⟨searchFrom_bounds X Y xe ye sz (sz + 1) 1 (by omega) hsz,
   searchReads_bounds X Y xe ye sz (sz + 1) 1 (by omega) hsz⟩

/-- Witness for C1 (amended): on the all-ties window of four waypoints
the search result indeed lies in `[1, 4]`. -/
theorem search_bounds_amended_witness :
    1 ≤ searchFrom (fun _ => (0 : ℝ)) (fun _ => 0) 0 0 4 1 ∧
      searchFrom (fun _ => (0 : ℝ)) (fun _ => 0) 0 0 4 1 ≤ 4 :=
  (search_bounds_amended (fun _ => 0) (fun _ => 0) 0 0 4 (by norm_num)).1

/-- Counterexample to claim C6: on input `s0` the controller selects the
heading index `idx + 1`, yet the signed projection
`dis_true_previous * cos(alpha_star - Psi[idx])` is `-2`, below the
segment length `1` — the source compares the absolute value of the
projection, not the signed projection the claim describes. -/
theorem heading_selection_signed_cex :
    closestpoint_heading_idx s0 = closestpoint_idx s0 + 1 ∧
    ¬ dis_true_previous s0 * Real.cos (alpha_star s0 - s0.Psi_loc (closestpoint_idx s0)) ≥
        compared_dist s0 := by
  have hidx : closestpoint_idx s0 = 1 := by
    unfold closestpoint_idx
    rw [searchFrom_unfold, if_neg]
    rintro ⟨hge, -⟩
    norm_num [distSq, s0] at hge
  have hd : dis_true_previous s0 = 2 := by
    unfold dis_true_previous
    rw [hidx]
    rw [show (s0.X_loc (1 - 1) - s0.X_est) ^ 2 + (s0.Y_loc (1 - 1) - s0.Y_est) ^ 2 = 2 ^ 2 by
      norm_num [s0]]
    exact Real.sqrt_sq (by norm_num)
  have ha : alpha_star s0 = 0 := by
    unfold alpha_star
    rw [hidx]
    norm_num [s0]
  have hp : s0.Psi_loc 1 = π := by
    norm_num [s0]
  have hcomp : compared_dist s0 = 1 := by
    unfold compared_dist
    rw [hidx]
    rw [show (s0.X_loc 1 - s0.X_loc (1 - 1)) ^ 2 + (s0.Y_loc 1 - s0.Y_loc (1 - 1)) ^ 2 = 1 by
      norm_num [s0]]
    exact Real.sqrt_one
  have hcos : Real.cos (alpha_star s0 - s0.Psi_loc (closestpoint_idx s0)) = -1 := by
    rw [hidx, ha, hp, zero_sub, Real.cos_neg, Real.cos_pi]
  constructor
  · have hproj : projected_dist s0 ≥ compared_dist s0 := by
      unfold projected_dist alpha_projected_dist
      rw [hd, hidx, ha, hp, hcomp, zero_sub, Real.cos_neg, Real.cos_pi]
      norm_num
    unfold closestpoint_heading_idx
    rw [if_pos hproj]
  · rw [hd, hcos, hcomp]
    norm_num

/-- Claim C6 (amended): the heading index is `idx + 1` exactly when the
absolute value of the projected distance,
`|dis_true_previous * cos(alpha_star - Psi[idx])|`, is at least the
segment length between waypoints `idx-1` and `idx`; otherwise it is
`idx`. -/
theorem heading_selection_abs :
    ∀ s : Inp,
      (closestpoint_heading_idx s = closestpoint_idx s + 1 ↔
        |dis_true_previous s * Real.cos (alpha_star s - s.Psi_loc (closestpoint_idx s))| ≥
          compared_dist s) ∧
      (closestpoint_heading_idx s = closestpoint_idx s ↔
        ¬ |dis_true_previous s * Real.cos (alpha_star s - s.Psi_loc (closestpoint_idx s))| ≥
          compared_dist s) := by
  intro s
  unfold closestpoint_heading_idx projected_dist alpha_projected_dist
  split_ifs with h
  · exact ⟨⟨fun _ => h, fun _ => rfl⟩,
      ⟨fun hc => absurd hc (by omega), fun hc => absurd h hc⟩⟩
  · exact ⟨⟨fun hc => absurd hc (by omega), fun hc => absurd hc h⟩,
      ⟨fun _ => h, fun _ => rfl⟩⟩

/-- Claim C10: whenever the computed lateral error is exactly zero, the
wrapped heading error is zero, the sampled heading-rate input is zero and
the filter state is zero, the controller outputs `roll_ref = 0` — the
roll transform maps the zero steering reference to zero. -/
theorem zero_error_zero_roll (s : Inp) (x : ℝ)
    (h1 : e1 s = 0) (h2 : e2 s = 0) (h3 : dpsiref s = 0) (hx : x = 0) :
    (controller s x).1 = 0 := by
  have herr : delta_ref_error s = 0 := by
    unfold delta_ref_error
    rw [h1, h2]
    have hs : sign 0 = 0 := by
      unfold sign
      norm_num
    rw [hs]
    ring
  have hpsi : delta_ref_psi s x = 0 := by
    unfold delta_ref_psi
    rw [h3, hx]
    ring
  have hq : (0 : ℝ) < π / 4 := by positivity
  have hcz : clamp_steer 0 = 0 := by
    simp only [clamp_steer]
    rw [if_neg (not_le.mpr hq), if_neg (not_le.mpr (by linarith))]
  have hdr : delta_ref s x = 0 := by
    unfold delta_ref
    rw [hpsi, herr, add_zero]
    exact hcz
  show roll_ref s x = 0
  unfold roll_ref eff_delta_ref
  rw [hdr, zero_mul, Real.tan_zero, zero_mul, zero_div, Real.arctan_zero]
  ring

/-- Witness for C10: the five-waypoint straight-line scenario `sW`
(vehicle exactly on the path, all headings zero, pass-through filter)
satisfies all four hypotheses and yields a zero roll reference. -/
theorem zero_error_zero_roll_witness :
    e1 sW = 0 ∧ e2 sW = 0 ∧ dpsiref sW = 0 ∧ (controller sW 0).1 = 0 := by
  have hidx : closestpoint_idx sW = 1 := by
    unfold closestpoint_idx
    rw [searchFrom_unfold, if_neg]
    rintro ⟨hge, -⟩
    norm_num [distSq, sW] at hge
  have hh : closestpoint_heading_idx sW = 1 := by
    have hd : dis_true_previous sW = 1 / 2 := by
      unfold dis_true_previous
      rw [hidx]
      rw [show (sW.X_loc (1 - 1) - sW.X_est) ^ 2 + (sW.Y_loc (1 - 1) - sW.Y_est) ^ 2
          = (1 / 2) ^ 2 by norm_num [sW]]
      exact Real.sqrt_sq (by norm_num)
    have hcomp : compared_dist sW = 1 := by
      unfold compared_dist
      rw [hidx]
      rw [show (sW.X_loc 1 - sW.X_loc (1 - 1)) ^ 2 + (sW.Y_loc 1 - sW.Y_loc (1 - 1)) ^ 2
          = 1 by norm_num [sW]]
      exact Real.sqrt_one
    have hnp : ¬ projected_dist sW ≥ compared_dist sW := by
      unfold projected_dist alpha_projected_dist
      have ha : alpha_star sW = 0 := by
        unfold alpha_star
        rw [hidx]
        norm_num [sW]
      rw [hd, hcomp, ha, hidx, show sW.Psi_loc 1 = 0 by norm_num [sW], sub_zero,
        Real.cos_zero, mul_one, abs_of_pos (by norm_num : (0 : ℝ) < 1 / 2)]
      norm_num
    unfold closestpoint_heading_idx
    rw [if_neg hnp]
    exact hidx
  have he1 : e1 sW = 0 := by
    unfold e1 dx dy
    rw [hh, hidx]
    norm_num [sW]
  have he2 : e2 sW = 0 := by
    have hz : sW.Psi_est - sW.Psi_loc (closestpoint_heading_idx sW) = 0 := by
      rw [hh]
      norm_num [sW]
    unfold e2
    rw [hz, wrap_angle_eq_mod]
    have h2 : (0 : ℝ) < 2 * π := by positivity
    rw [mod_eq_fract_mul _ _ h2.ne', zero_add,
      show π / (2 * π) = 1 / 2 by rw [div_eq_iff h2.ne']; ring,
      Int.fract_eq_self.mpr (by norm_num)]
    ring
  have hdp : dpsiref sW = 0 := by
    unfold dpsiref D_psiref
    rw [hidx]
    have hz : sW.Psi_loc (1 + 1) - sW.Psi_loc 1 = 0 := by
      norm_num [sW]
    rw [hz]
    have hl0 : limit_D_psiref 0 = 0 := by
      have hpi := Real.pi_pos
      have hp1 : ¬ ((0 : ℝ) ≥ π) := by
        push_neg
        exact hpi
      have hp2 : ¬ ((0 : ℝ) ≤ -π) := by
        push_neg
        linarith
      simp only [limit_D_psiref]
      rw [if_neg hp1, if_neg hp2]
    rw [hl0, zero_div]
  exact ⟨he1, he2, hdp, zero_error_zero_roll sW 0 he1 he2 hdp rfl⟩

end Autobike
